import Mathlib

/-!
Verification of the DocuPilot backend's chunking / vector-store pipeline.

Texts are modelled as `List Char`; Python integers as `Int` (start offsets in
the chunking loop can go negative when the configuration is bad, exactly as in
the Python source); Python slicing `text[a:b]` as `pySlice` with Python's
clamping and negative-index semantics.  The chunking `while` loop of
`VectorStore._chunk_text` is modelled with an explicit fuel parameter: the
function returns `none` when the given fuel does not suffice, so genuine
non-termination of the source loop corresponds to `none` for every fuel.
-/

namespace Docupilot

/-- Python index clamping for a slice bound `i` against a sequence of length
`n`: negative indices count from the end, positive ones are clamped to `n`. -/
def pyIdx (n : Nat) (i : Int) : Nat :=
  if i < 0 then ((n : Int) + i).toNat else min i.toNat n

/-- Python slice `s[a:b]` on a character list. -/
def pySlice (s : List Char) (a b : Int) : List Char :=
  (s.take (pyIdx s.length b)).drop (pyIdx s.length a)

/-- Nat-index slice `s[a:b]` used by the specification lemmas; agrees with
`pySlice` on non-negative bounds (`pySlice_eq_sliceN`). -/
def sliceN (s : List Char) (a b : Nat) : List Char :=
  (s.take b).drop a

/-- The body of the `while start < len(text)` loop of
`VectorStore._chunk_text` (src/services/vector_store.py): emit
`text[start:start+chunk_size]` and continue from `end - chunk_overlap`.
`fuel` bounds the number of iterations we are willing to model; a result
`none` means the loop did not finish within `fuel` iterations. -/
def chunkTextAux (text : List Char) (cs co : Int) : Nat → Int → Option (List (List Char))
  | 0, _ => none
  | fuel + 1, start =>
    if start < (text.length : Int) then
      (chunkTextAux text cs co fuel (start + cs - co)).map
        (fun rest => pySlice text start (start + cs) :: rest)
    else
      some []

/-- `VectorStore._chunk_text(text, chunk_size, chunk_overlap)`.  The fuel
`text.length + 1` is enough for every terminating configuration
(`0 ≤ chunk_overlap < chunk_size`, see `chunk_text_eq_chunksFrom`); for
non-terminating configurations the result is `none` for this and every other
fuel (`chunkTextAux_none_of_le`). -/
def chunk_text (text : List Char) (cs co : Int) : Option (List (List Char)) :=
  chunkTextAux text cs co (text.length + 1) 0

/-- Number of chunks produced from offset `a` with stride `t`: the count of
`k` with `a + k*t < n`, i.e. `ceil((n-a)/t)`. -/
def chunkCount (n t a : Nat) : Nat :=
  (n - a + t - 1) / t

/-- Closed form for the chunk list produced from offset `a`. -/
def chunksFrom (text : List Char) (cs co a : Nat) : List (List Char) :=
  (List.range (chunkCount text.length (cs - co) a)).map
    (fun i => sliceN text (a + i * (cs - co)) (a + i * (cs - co) + cs))

theorem pySlice_eq_sliceN (s : List Char) (a b : Int) (ha : 0 ≤ a) (hb : 0 ≤ b) :
    pySlice s a b = sliceN s a.toNat b.toNat := by
  unfold pySlice sliceN pyIdx
  rw [if_neg (by omega), if_neg (by omega)]
  rcases Nat.le_total b.toNat s.length with hbs | hbs
  · rw [min_eq_left hbs]
    rcases Nat.le_total a.toNat s.length with has | has
    · rw [min_eq_left has]
    · rw [min_eq_right has]
      rw [List.drop_eq_nil_of_le (by simp only [List.length_take]; omega),
        List.drop_eq_nil_of_le (by simp only [List.length_take]; omega)]
  · rw [min_eq_right hbs, List.take_length,
      List.take_of_length_le hbs]
    rcases Nat.le_total a.toNat s.length with has | has
    · rw [min_eq_left has]
    · rw [min_eq_right has]
      rw [List.drop_eq_nil_of_le le_rfl, List.drop_eq_nil_of_le has]

theorem chunkCount_pos_iff (n t a : Nat) (ht : 0 < t) :
    0 < chunkCount n t a ↔ a < n := by
  unfold chunkCount
  constructor
  · intro h
    by_contra hc
    have hna : n - a = 0 := by omega
    have hz : (n - a + t - 1) / t = 0 := by
      rw [hna]
      exact Nat.div_eq_of_lt (by omega)
    omega
  · intro h
    have h1 : n - a + t - 1 = (n - a - 1) + t := by omega
    rw [h1, Nat.add_div_right _ ht]
    exact Nat.succ_pos _

theorem chunkCount_succ (n t a : Nat) (ht : 0 < t) (ha : a < n) :
    chunkCount n t a = chunkCount n t (a + t) + 1 := by
  unfold chunkCount
  have h1 : n - a + t - 1 = (n - a - 1) + t := by omega
  rw [h1, Nat.add_div_right _ ht]
  rcases Nat.le_total t (n - a) with hle | hlt
  · have h2 : n - (a + t) + t - 1 = n - a - 1 := by omega
    rw [h2]
  · have h2 : n - (a + t) = 0 := by omega
    rw [h2, Nat.div_eq_of_lt (by omega), Nat.div_eq_of_lt (by omega)]

theorem chunksFrom_eq_nil (text : List Char) (cs co a : Nat) (ht : 0 < cs - co)
    (ha : text.length ≤ a) : chunksFrom text cs co a = [] := by
  unfold chunksFrom
  have : chunkCount text.length (cs - co) a = 0 := by
    by_contra h
    have := (chunkCount_pos_iff text.length (cs - co) a ht).1 (by omega)
    omega
  rw [this]
  rfl

theorem chunksFrom_cons (text : List Char) (cs co a : Nat) (ht : 0 < cs - co)
    (ha : a < text.length) :
    chunksFrom text cs co a =
      sliceN text a (a + cs) :: chunksFrom text cs co (a + (cs - co)) := by
  unfold chunksFrom
  rw [chunkCount_succ text.length (cs - co) a ht ha, List.range_succ_eq_map]
  simp only [List.map_cons, List.map_map]
  congr 1
  · simp
  · apply List.map_congr_left
    intro i _
    simp only [Function.comp_apply, Nat.succ_eq_add_one]
    congr 1 <;> ring

/-- The fueled loop computes the closed form whenever the fuel exceeds the
number of remaining characters (stride at least 1 guarantees progress). -/
theorem chunkTextAux_eq_chunksFrom (text : List Char) (cs co : Nat) (hco : co < cs) :
    ∀ (fuel : Nat) (a : Nat), text.length - a < fuel →
      chunkTextAux text (cs : Int) (co : Int) fuel (a : Int) =
        some (chunksFrom text cs co a) := by
  intro fuel
  induction fuel with
  | zero => intro a h; omega
  | succ fuel ih =>
    intro a h
    unfold chunkTextAux
    by_cases hlt : (a : Int) < (text.length : Int)
    · rw [if_pos hlt]
      have ha : a < text.length := by exact_mod_cast hlt
      have hcast : (a : Int) + (cs : Int) - (co : Int) = ((a + (cs - co) : Nat) : Int) := by
        push_cast; omega
      rw [hcast, ih (a + (cs - co)) (by omega)]
      rw [chunksFrom_cons text cs co a (by omega) ha]
      have hps : pySlice text (a : Int) ((a : Int) + (cs : Int)) = sliceN text a (a + cs) := by
        rw [pySlice_eq_sliceN text _ _ (by omega) (by omega)]
        congr 1
      rw [← hps]
      rfl
    · rw [if_neg hlt]
      have ha : text.length ≤ a := by omega
      rw [chunksFrom_eq_nil text cs co a (by omega) ha]

theorem chunk_text_eq_chunksFrom (text : List Char) (cs co : Nat) (hco : co < cs) :
    chunk_text text (cs : Int) (co : Int) = some (chunksFrom text cs co 0) := by
  have h := chunkTextAux_eq_chunksFrom text cs co hco (text.length + 1) 0 (by omega)
  unfold chunk_text
  exact_mod_cast h

/-- With `chunk_size ≤ chunk_overlap` the loop start never advances past the
end of a non-empty text, so no amount of fuel finishes the loop: this is the
non-termination of the Python `while` loop. -/
theorem chunkTextAux_none_of_le (text : List Char) (cs co : Int) (hle : cs ≤ co) :
    ∀ (fuel : Nat) (start : Int), start < (text.length : Int) →
      chunkTextAux text cs co fuel start = none := by
  intro fuel
  induction fuel with
  | zero => intro start _; rfl
  | succ fuel ih =>
    intro start hs
    unfold chunkTextAux
    rw [if_pos hs, ih (start + cs - co) (by omega)]
    rfl

theorem length_sliceN (s : List Char) (a b : Nat) :
    (sliceN s a b).length = min b s.length - a := by
  simp [sliceN, List.length_drop, List.length_take]

theorem sliceN_drop (s : List Char) (a b k : Nat) :
    (sliceN s a b).drop k = sliceN s (a + k) b := by
  unfold sliceN
  rw [List.drop_drop]

theorem sliceN_take (s : List Char) (a b k : Nat) (hk : a + k ≤ b) :
    (sliceN s a b).take k = sliceN s a (a + k) := by
  unfold sliceN
  rw [List.take_drop, List.take_take, min_eq_left hk]

theorem sliceN_append_drop (s : List Char) (x y : Nat) (hxy : x ≤ y) :
    sliceN s x y ++ s.drop y = s.drop x := by
  unfold sliceN
  conv_rhs => rw [← List.take_append_drop y s]
  rw [List.drop_append_eq_append_drop]
  congr 1
  rcases Nat.le_total s.length y with hyl | hyl
  · rw [List.drop_eq_nil_of_le hyl]
    simp
  · have hty : (s.take y).length = y := by
      rw [List.length_take]
      omega
    rw [hty, Nat.sub_eq_zero_of_le hxy, List.drop_zero]

/-- Dropping the first `chunk_overlap` characters of every chunk produced
from offset `a` and concatenating yields the text from position
`a + chunk_overlap` on. -/
theorem chunksFrom_flatten_drop (text : List Char) (cs co : Nat) (hco : co < cs) :
    ∀ (k a : Nat), chunkCount text.length (cs - co) a = k →
      ((chunksFrom text cs co a).map (fun c => c.drop co)).flatten =
        text.drop (a + co) := by
  intro k
  induction k with
  | zero =>
    intro a hk
    have ha : text.length ≤ a := by
      by_contra hc
      have := (chunkCount_pos_iff text.length (cs - co) a (by omega)).2 (by omega)
      omega
    rw [chunksFrom_eq_nil text cs co a (by omega) ha]
    simp [List.drop_eq_nil_of_le (by omega : text.length ≤ a + co)]
  | succ k ih =>
    intro a hk
    have ha : a < text.length :=
      (chunkCount_pos_iff text.length (cs - co) a (by omega)).1 (by omega)
    rw [chunksFrom_cons text cs co a (by omega) ha]
    have hcount : chunkCount text.length (cs - co) (a + (cs - co)) = k := by
      have := chunkCount_succ text.length (cs - co) a (by omega) ha
      omega
    simp only [List.map_cons, List.flatten_cons]
    rw [ih (a + (cs - co)) hcount, sliceN_drop]
    have harith : a + (cs - co) + co = a + cs := by omega
    rw [harith, sliceN_append_drop text (a + co) (a + cs) (by omega)]

theorem chunksFrom_length (text : List Char) (cs co a : Nat) :
    (chunksFrom text cs co a).length = chunkCount text.length (cs - co) a := by
  simp [chunksFrom]

theorem chunksFrom_getElem (text : List Char) (cs co a i : Nat)
    (h : i < (chunksFrom text cs co a).length) :
    (chunksFrom text cs co a)[i] =
      sliceN text (a + i * (cs - co)) (a + i * (cs - co) + cs) := by
  unfold chunksFrom at h ⊢
  simp only [List.getElem_map, List.getElem_range]

/-- C1 (amended): for every text, `chunk_size > 0` and
`0 ≤ chunk_overlap < chunk_size`, the chunking loop of
`VectorStore._chunk_text` terminates and deterministically returns the chunks
`text[start : start+chunk_size]` for `start = 0, s, 2s, ...` with
`s = chunk_size - chunk_overlap`; the chunks cover the text with no gaps
(dropping the first `chunk_overlap` characters of every chunk after the first
and concatenating reconstructs the text exactly); and every pair of
consecutive chunks whose EARLIER member is not truncated by the end of the
text overlaps in exactly `chunk_overlap` characters (the last
`chunk_overlap` characters of the earlier chunk are the first
`chunk_overlap` characters of the later one).  The original claim asserted
the exact-overlap property for every pair except the final chunk, which
fails when a non-final chunk is already truncated; see
`chunk_text_overlap_counterexample`. -/
theorem chunk_text_correct (text : List Char) (cs co : Nat) (hcs : 0 < cs) (hco : co < cs) :
    ∃ cks, chunk_text text (cs : Int) (co : Int) = some cks ∧
      (∀ i (h : i < cks.length),
        cks[i] = sliceN text (i * (cs - co)) (i * (cs - co) + cs)) ∧
      (cks = [] → text = []) ∧
      (∀ c rest, cks = c :: rest →
        c ++ ((rest.map (fun ch => ch.drop co)).flatten) = text) ∧
      (∀ i (h : i + 1 < cks.length), i * (cs - co) + cs ≤ text.length →
        co ≤ cks[i + 1].length ∧
        cks[i].drop (cks[i].length - co) = cks[i + 1].take co) := by
  refine ⟨chunksFrom text cs co 0, chunk_text_eq_chunksFrom text cs co hco, ?_, ?_, ?_, ?_⟩
  · intro i h
    rw [chunksFrom_getElem text cs co 0 i h]
    congr 1 <;> omega
  · intro hnil
    have hlen := congrArg List.length hnil
    rw [chunksFrom_length] at hlen
    simp only [List.length_nil] at hlen
    have hn : ¬ 0 < text.length := by
      intro hpos
      have := (chunkCount_pos_iff text.length (cs - co) 0 (by omega)).2 (by omega)
      omega
    have : text.length = 0 := by omega
    exact List.length_eq_zero.1 this
  · intro c rest hcons
    have hne : chunksFrom text cs co 0 ≠ [] := by
      rw [hcons]; exact List.cons_ne_nil c rest
    have hpos : 0 < text.length := by
      by_contra hc
      exact hne (chunksFrom_eq_nil text cs co 0 (by omega) (by omega))
    rw [chunksFrom_cons text cs co 0 (by omega) hpos] at hcons
    obtain ⟨hc, hrest⟩ := List.cons.inj hcons
    have hflat := chunksFrom_flatten_drop text cs co hco
      (chunkCount text.length (cs - co) (0 + (cs - co))) (0 + (cs - co)) rfl
    rw [hrest] at hflat
    have harith : 0 + (cs - co) + co = cs := by omega
    rw [harith] at hflat
    rw [← hc, hflat]
    have hhead : sliceN text 0 (0 + cs) = text.take cs := by
      unfold sliceN
      rw [List.drop_zero]
      congr 1
      omega
    rw [hhead, List.take_append_drop]
  · intro i h htr
    have hi : i < (chunksFrom text cs co 0).length := by omega
    rw [chunksFrom_getElem text cs co 0 i hi,
      chunksFrom_getElem text cs co 0 (i + 1) h]
    have hmul : (i + 1) * (cs - co) = i * (cs - co) + (cs - co) := by ring
    have hlen1 := length_sliceN text (0 + (i + 1) * (cs - co)) (0 + (i + 1) * (cs - co) + cs)
    constructor
    · rw [hlen1, hmul]
      omega
    · have hlen0 : (sliceN text (0 + i * (cs - co)) (0 + i * (cs - co) + cs)).length = cs := by
        rw [length_sliceN]
        omega
      rw [hlen0, sliceN_drop, sliceN_take _ _ _ co (by omega)]
      congr 1 <;> omega

/-- C1 counterexample: with text `abcd`, `chunk_size = 5`,
`chunk_overlap = 4` (which satisfies `0 ≤ overlap < size`), the chunks are
`abcd, bcd, cd, d`; the pair of consecutive chunks at indices 0 and 1 —
neither of which is the final chunk — does not overlap in exactly 4
characters (the later chunk has only 3 characters, and the last 4 characters
of the earlier chunk differ from the first 4 of the later one). -/
theorem chunk_text_overlap_counterexample :
    chunk_text (String.toList "abcd") 5 4 =
      some [String.toList "abcd", String.toList "bcd",
        String.toList "cd", String.toList "d"] ∧
    ¬ (4 ≤ (String.toList "bcd").length ∧
        (String.toList "abcd").drop ((String.toList "abcd").length - 4) =
          (String.toList "bcd").take 4) := by
  decide

/-- C3 (amended): with `chunk_size > 0` and
`0 ≤ chunk_overlap < chunk_size`, chunking the empty text yields the empty
sequence, and chunking a non-empty text of length at most
`chunk_size - chunk_overlap` yields exactly one chunk equal to the whole
text.  The original claim promised a single chunk for every text shorter
than `chunk_size`, which fails when
`chunk_size - chunk_overlap < len(text) < chunk_size`; see
`chunk_text_short_text_counterexample`. -/
theorem chunk_text_edge_cases (cs co : Nat) (hcs : 0 < cs) (hco : co < cs) :
    chunk_text ([] : List Char) (cs : Int) (co : Int) = some [] ∧
    (∀ text : List Char, 0 < text.length → text.length ≤ cs - co →
      chunk_text text (cs : Int) (co : Int) = some [text]) := by
  constructor
  · rw [chunk_text_eq_chunksFrom [] cs co hco,
      chunksFrom_eq_nil [] cs co 0 (by omega) (by simp)]
  · intro text hpos hle
    rw [chunk_text_eq_chunksFrom text cs co hco,
      chunksFrom_cons text cs co 0 (by omega) hpos,
      chunksFrom_eq_nil text cs co (0 + (cs - co)) (by omega) (by omega)]
    have hhead : sliceN text 0 (0 + cs) = text := by
      unfold sliceN
      rw [List.drop_zero]
      exact List.take_of_length_le (by omega)
    rw [hhead]

/-- C3 counterexample: the text `abcd` is shorter than the chunk size 5, yet
with `chunk_overlap = 4` the chunker returns four chunks, not a single chunk
equal to the whole text. -/
theorem chunk_text_short_text_counterexample :
    (String.toList "abcd").length < 5 ∧
    chunk_text (String.toList "abcd") 5 4 ≠ some [String.toList "abcd"] := by
  decide

/-- Witness for `chunk_text_correct`: the theorem instantiated at text
`abcdef`, chunk size 3, overlap 1. -/
theorem chunk_text_correct_witness :
    (0 < 3 ∧ 1 < 3) ∧
    ∃ cks, chunk_text (String.toList "abcdef") ((3 : Nat) : Int) ((1 : Nat) : Int) = some cks ∧
      (∀ i (h : i < cks.length),
        cks[i] = sliceN (String.toList "abcdef") (i * (3 - 1)) (i * (3 - 1) + 3)) ∧
      (cks = [] → String.toList "abcdef" = []) ∧
      (∀ c rest, cks = c :: rest →
        c ++ ((rest.map (fun ch => ch.drop 1)).flatten) = String.toList "abcdef") ∧
      (∀ i (h : i + 1 < cks.length),
        i * (3 - 1) + 3 ≤ (String.toList "abcdef").length →
        1 ≤ cks[i + 1].length ∧
        cks[i].drop (cks[i].length - 1) = cks[i + 1].take 1) :=
  ⟨⟨by decide, by decide⟩,
    chunk_text_correct (String.toList "abcdef") 3 1 (by decide) (by decide)⟩

/-- Witness for `chunk_text_edge_cases`: chunk size 3 and overlap 1, with
the non-empty text `ab` of length `2 ≤ 3 - 1`. -/
theorem chunk_text_edge_cases_witness :
    chunk_text ([] : List Char) ((3 : Nat) : Int) ((1 : Nat) : Int) = some [] ∧
    chunk_text (String.toList "ab") ((3 : Nat) : Int) ((1 : Nat) : Int) =
      some [String.toList "ab"] :=
  ⟨(chunk_text_edge_cases 3 1 (by decide) (by decide)).1,
    (chunk_text_edge_cases 3 1 (by decide) (by decide)).2
      (String.toList "ab") (by decide) (by decide)⟩

/-!
Request validation for the embedding-creation endpoint
(src/api/embeddings.py).  `EmbeddingCreateRequest` constrains
`chunk_size` to 100..5000 (both the field bounds and
`validate_chunk_size` in src/utils/validators.py) and `chunk_overlap` to
0..500; no validator anywhere compares `chunk_overlap` with `chunk_size`,
and the repository defines no `ConfigurationError` exception at all.
-/

/-- Parameter validation performed by `EmbeddingCreateRequest` on
`chunk_size` and `chunk_overlap`: the pydantic field bounds
`100 ≤ chunk_size ≤ 5000` and `0 ≤ chunk_overlap ≤ 500` together with
`validate_chunk_size` (which re-checks the same bounds on `chunk_size`). -/
def embeddingRequestParamsOk (cs co : Int) : Bool :=
  100 ≤ cs && cs ≤ 5000 && 0 ≤ co && co ≤ 500

/-- C2 (refuted by the code): the claim says every chunking path rejects
`chunk_overlap ≥ chunk_size` with a `ConfigurationError` before the loop
runs.  In fact the embedding-creation request validation accepts
`chunk_size = 100, chunk_overlap = 200` (which passes all field bounds),
and on any non-empty text — here a ten-character text, the minimum the
endpoint accepts — the chunking loop of `VectorStore._chunk_text` never
terminates: it returns `none` for every fuel bound. -/
theorem chunk_overlap_not_rejected :
    embeddingRequestParamsOk 100 200 = true ∧
    ∀ fuel : Nat,
      chunkTextAux (String.toList "aaaaaaaaaa") 100 200 fuel 0 = none := by
  refine ⟨by decide, ?_⟩
  intro fuel
  exact chunkTextAux_none_of_le (String.toList "aaaaaaaaaa") 100 200
    (by omega) fuel 0 (by decide)

/-!
The inline re-chunking loops.  `create_embeddings`
(src/api/embeddings.py, text branch) and `generate_document`
(src/api/documents.py, embedding branch) each duplicate the chunking
`while` loop of `VectorStore._chunk_text` verbatim; they are translated
here separately, and proved extensionally equal to the vector store's
chunker.
-/

/-- The inline re-chunking loop of `create_embeddings`
(src/api/embeddings.py lines 109-115), modelled with the same fuel
discipline as `chunkTextAux`. -/
def createEmbeddingsRechunkAux (text : List Char) (cs co : Int) :
    Nat → Int → Option (List (List Char))
  | 0, _ => none
  | fuel + 1, start =>
    if start < (text.length : Int) then
      (createEmbeddingsRechunkAux text cs co fuel (start + cs - co)).map
        (fun rest => pySlice text start (start + cs) :: rest)
    else
      some []

/-- The inline re-chunking performed by `create_embeddings` on the request
text. -/
def createEmbeddingsRechunk (text : List Char) (cs co : Int) : Option (List (List Char)) :=
  createEmbeddingsRechunkAux text cs co (text.length + 1) 0

/-- The inline chunking loop of `generate_document`
(src/api/documents.py lines 390-399), with its hard-coded
`chunk_size = 1000` and `chunk_overlap = 200`. -/
def generateDocRechunkAux (text : List Char) :
    Nat → Int → Option (List (List Char))
  | 0, _ => none
  | fuel + 1, start =>
    if start < (text.length : Int) then
      (generateDocRechunkAux text fuel (start + 1000 - 200)).map
        (fun rest => pySlice text start (start + 1000) :: rest)
    else
      some []

/-- The inline chunking performed by `generate_document` on the generated
document content. -/
def generateDocRechunk (text : List Char) : Option (List (List Char)) :=
  generateDocRechunkAux text (text.length + 1) 0

theorem createEmbeddingsRechunkAux_eq (text : List Char) (cs co : Int) :
    ∀ (fuel : Nat) (start : Int),
      createEmbeddingsRechunkAux text cs co fuel start =
        chunkTextAux text cs co fuel start := by
  intro fuel
  induction fuel with
  | zero => intro start; rfl
  | succ fuel ih =>
    intro start
    unfold createEmbeddingsRechunkAux chunkTextAux
    rw [ih]

theorem generateDocRechunkAux_eq (text : List Char) :
    ∀ (fuel : Nat) (start : Int),
      generateDocRechunkAux text fuel start =
        chunkTextAux text 1000 200 fuel start := by
  intro fuel
  induction fuel with
  | zero => intro start; rfl
  | succ fuel ih =>
    intro start
    unfold generateDocRechunkAux chunkTextAux
    rw [ih]

/-- C4: every place that produces chunks computes the same chunk sequence —
the inline re-chunking loop of the embedding-creation endpoint is
extensionally equal to `VectorStore._chunk_text` at every
`(text, chunk_size, chunk_overlap)`, and the inline loop of the generation
endpoint is extensionally equal to `VectorStore._chunk_text` at its
hard-coded `(1000, 200)` parameters, iteration by iteration (for every fuel
and every loop offset). -/
theorem rechunk_paths_agree :
    (∀ (text : List Char) (cs co : Int),
      createEmbeddingsRechunk text cs co = chunk_text text cs co) ∧
    (∀ text : List Char, generateDocRechunk text = chunk_text text 1000 200) ∧
    (∀ (text : List Char) (cs co : Int) (fuel : Nat) (start : Int),
      createEmbeddingsRechunkAux text cs co fuel start =
        chunkTextAux text cs co fuel start) ∧
    (∀ (text : List Char) (fuel : Nat) (start : Int),
      generateDocRechunkAux text fuel start = chunkTextAux text 1000 200 fuel start) :=
  ⟨fun text cs co => createEmbeddingsRechunkAux_eq text cs co _ 0,
    fun text => generateDocRechunkAux_eq text _ 0,
    fun text cs co fuel start => createEmbeddingsRechunkAux_eq text cs co fuel start,
    fun text fuel start => generateDocRechunkAux_eq text fuel start⟩

/-!
The vector store's store path (src/services/vector_store.py,
`store_document`): chunk, embed each chunk (the embedding backend is
modelled as an arbitrary function parameter), and build one vector per
chunk whose id is the string `doc_id` + `_chunk_` + the decimal chunk
index, with metadata carrying the document id, the chunk index and a
500-character preview of the chunk.  The external vector index is modelled
as a list of entries with last-writer-wins upsert per id, following the
source's contract for the index.
-/

/-- An entry of the external vector index: id, embedding values, and the
metadata fields written by `store_document`. -/
structure VecEntry (α : Type) where
  id : String
  values : α
  meta_doc_id : String
  meta_chunk_index : Nat
  meta_preview : List Char
deriving DecidableEq

/-- Derived vector id `doc_id` + `_chunk_` + decimal index, as built by
`store_document` and by both API re-chunking paths. -/
def vector_id (doc_id : String) (i : Nat) : String :=
  doc_id ++ "_chunk_" ++ Nat.repr i

/-- Python `enumerate`. -/
def pyEnumerate {β : Type} (l : List β) : List (Nat × β) :=
  (List.range l.length).zip l

/-- The vector list built by the `for i, (chunk, embedding) in
enumerate(zip(chunks, embeddings))` loop of `store_document`. -/
def storeVectors {α : Type} (embed : List Char → α) (doc_id : String)
    (chunks : List (List Char)) : List (VecEntry α) :=
  (pyEnumerate chunks).map
    (fun p => ⟨vector_id doc_id p.1, embed p.2, doc_id, p.1, p.2.take 500⟩)

/-- `VectorStore.store_document`: chunk the text, embed, build vectors and
ids; `none` when the chunking loop does not terminate.  Returns the vectors
handed to the index upsert together with the returned vector-id list. -/
def store_document {α : Type} (embed : List Char → α) (doc_id : String)
    (text : List Char) (cs co : Int) : Option (List (VecEntry α) × List String) :=
  (chunk_text text cs co).map (fun chunks =>
    let vectors := storeVectors embed doc_id chunks
    (vectors, vectors.map (fun v => v.id)))

/-- Last-writer-wins upsert of a single vector into the index: overwrite the
entry with the same id in place if present, else append. -/
def upsertOne {α : Type} (idx : List (VecEntry α)) (v : VecEntry α) : List (VecEntry α) :=
  if idx.any (fun w => w.id == v.id) then
    idx.map (fun w => if w.id == v.id then v else w)
  else
    idx ++ [v]

/-- Upsert of a batch of vectors, in order (`PineconeService.upsert_vectors`). -/
def upsertMany {α : Type} (idx : List (VecEntry α)) (vs : List (VecEntry α)) :
    List (VecEntry α) :=
  vs.foldl upsertOne idx

theorem storeVectors_map_id {α : Type} (embed : List Char → α) (d : String)
    (chunks : List (List Char)) :
    (storeVectors embed d chunks).map (fun v => v.id) =
      (List.range chunks.length).map (vector_id d) := by
  unfold storeVectors pyEnumerate
  rw [List.map_map]
  have h2 : ((List.range chunks.length).zip chunks).map
        ((fun v : VecEntry α => v.id) ∘
          (fun p : Nat × List Char =>
            VecEntry.mk (vector_id d p.1) (embed p.2) d p.1 (p.2.take 500))) =
      (((List.range chunks.length).zip chunks).map Prod.fst).map (vector_id d) := by
    rw [List.map_map]
    rfl
  rw [h2, List.map_fst_zip _ _ (by simp)]

theorem upsertOne_map_id {α : Type} (idx : List (VecEntry α)) (v : VecEntry α) :
    (upsertOne idx v).map (fun w => w.id) =
      if v.id ∈ idx.map (fun w => w.id) then idx.map (fun w => w.id)
      else idx.map (fun w => w.id) ++ [v.id] := by
  unfold upsertOne
  by_cases hmem : v.id ∈ idx.map (fun w => w.id)
  · have hany : idx.any (fun w => w.id == v.id) = true := by
      simp only [List.any_eq_true, beq_iff_eq]
      obtain ⟨w, hw, hid⟩ := List.mem_map.1 hmem
      exact ⟨w, hw, hid⟩
    rw [if_pos hany, if_pos hmem, List.map_map]
    apply List.map_congr_left
    intro w hw
    simp only [Function.comp_apply]
    by_cases hcase : w.id = v.id
    · rw [if_pos (by simp [hcase])]
      exact hcase.symm
    · rw [if_neg (by simp [hcase])]
  · have hany : ¬ idx.any (fun w => w.id == v.id) = true := by
      simp only [List.any_eq_true, beq_iff_eq]
      intro ⟨w, hw, hid⟩
      exact hmem (List.mem_map.2 ⟨w, hw, hid⟩)
    rw [if_neg hany, if_neg hmem, List.map_append]
    rfl

theorem mem_map_id_upsertMany {α : Type} :
    ∀ (vs : List (VecEntry α)) (idx : List (VecEntry α)) (k : String),
      k ∈ idx.map (fun w => w.id) → k ∈ (upsertMany idx vs).map (fun w => w.id) := by
  intro vs
  induction vs with
  | nil => intro idx k h; exact h
  | cons v rest ih =>
    intro idx k h
    have h1 : k ∈ (upsertOne idx v).map (fun w => w.id) := by
      rw [upsertOne_map_id]
      split
      · exact h
      · exact List.mem_append_left _ h
    exact ih (upsertOne idx v) k h1

theorem mem_self_upsertMany {α : Type} :
    ∀ (vs : List (VecEntry α)) (idx : List (VecEntry α)) (v : VecEntry α),
      v ∈ vs → v.id ∈ (upsertMany idx vs).map (fun w => w.id) := by
  intro vs
  induction vs with
  | nil => intro idx v h; cases h
  | cons w rest ih =>
    intro idx v h
    rcases List.mem_cons.1 h with hv | hv
    · subst hv
      have hstep : upsertMany idx (v :: rest) = upsertMany (upsertOne idx v) rest := rfl
      rw [hstep]
      apply mem_map_id_upsertMany
      rw [upsertOne_map_id]
      split
      · assumption
      · exact List.mem_append_right _ (List.mem_singleton.2 rfl)
    · exact ih (upsertOne idx w) v hv

theorem upsertMany_map_id_of_all_mem {α : Type} :
    ∀ (vs : List (VecEntry α)) (idx : List (VecEntry α)),
      (∀ v ∈ vs, v.id ∈ idx.map (fun w => w.id)) →
      (upsertMany idx vs).map (fun w => w.id) = idx.map (fun w => w.id) := by
  intro vs
  induction vs with
  | nil => intro idx _; rfl
  | cons v rest ih =>
    intro idx hall
    have h1 : (upsertOne idx v).map (fun w => w.id) = idx.map (fun w => w.id) := by
      rw [upsertOne_map_id, if_pos (hall v (List.mem_cons_self v rest))]
    have h2 := ih (upsertOne idx v) (fun w hw => by
      rw [h1]
      exact hall w (List.mem_cons_of_mem v hw))
    rw [show upsertMany idx (v :: rest) = upsertMany (upsertOne idx v) rest from rfl,
      h2, h1]

/-- C5: under the chunker precondition, `store_document` succeeds and the
vector-id sequence it returns is independent of the embedding backend (so
two stores of the same `(doc_id, text, chunk_size, chunk_overlap)` produce
identical id sequences), each id is exactly `doc_id` + `_chunk_` + the
decimal chunk index, and upserting the second store's vectors into any
index that already received the first store's vectors leaves the index's id
sequence unchanged — the re-store overwrites the same entries in place. -/
theorem store_document_idempotent_ids {α : Type} (embed₁ embed₂ : List Char → α)
    (doc_id : String) (text : List Char) (cs co : Nat) (hcs : 0 < cs) (hco : co < cs) :
    ∃ vecs₁ ids₁ vecs₂ ids₂,
      store_document embed₁ doc_id text (cs : Int) (co : Int) = some (vecs₁, ids₁) ∧
      store_document embed₂ doc_id text (cs : Int) (co : Int) = some (vecs₂, ids₂) ∧
      ids₁ = ids₂ ∧
      (∀ i (h : i < ids₁.length), ids₁[i] = doc_id ++ "_chunk_" ++ Nat.repr i) ∧
      (∀ idx : List (VecEntry α),
        (upsertMany (upsertMany idx vecs₁) vecs₂).map (fun v => v.id) =
          (upsertMany idx vecs₁).map (fun v => v.id)) := by
  have hchunk := chunk_text_eq_chunksFrom text cs co hco
  set chunks := chunksFrom text cs co 0 with hchunks
  refine ⟨storeVectors embed₁ doc_id chunks,
    (storeVectors embed₁ doc_id chunks).map (fun v => v.id),
    storeVectors embed₂ doc_id chunks,
    (storeVectors embed₂ doc_id chunks).map (fun v => v.id),
    ?_, ?_, ?_, ?_, ?_⟩
  · unfold store_document
    rw [hchunk]
    rfl
  · unfold store_document
    rw [hchunk]
    rfl
  · rw [storeVectors_map_id, storeVectors_map_id]
  · intro i h
    simp only [storeVectors, pyEnumerate, List.getElem_map, List.getElem_zip,
      List.getElem_range]
    rfl
  · intro idx
    apply upsertMany_map_id_of_all_mem
    intro v hv
    have hid : v.id ∈ (storeVectors embed₂ doc_id chunks).map (fun w => w.id) :=
      List.mem_map.2 ⟨v, hv, rfl⟩
    rw [storeVectors_map_id] at hid
    have hid1 : v.id ∈ (storeVectors embed₁ doc_id chunks).map (fun w => w.id) := by
      rw [storeVectors_map_id]
      exact hid
    obtain ⟨w, hw, hwid⟩ := List.mem_map.1 hid1
    rw [← hwid]
    exact mem_self_upsertMany _ idx w hw

/-- Witness for `store_document_idempotent_ids`: embedding backends mapping
every chunk to 0 and 1 respectively, document id `d`, text `ab`, chunk size
3, overlap 1. -/
theorem store_document_idempotent_ids_witness :
    ∃ vecs₁ ids₁ vecs₂ ids₂,
      store_document (fun _ => (0 : Nat)) "d" (String.toList "ab")
          ((3 : Nat) : Int) ((1 : Nat) : Int) = some (vecs₁, ids₁) ∧
      store_document (fun _ => (1 : Nat)) "d" (String.toList "ab")
          ((3 : Nat) : Int) ((1 : Nat) : Int) = some (vecs₂, ids₂) ∧
      ids₁ = ids₂ ∧
      (∀ i (h : i < ids₁.length), ids₁[i] = "d" ++ "_chunk_" ++ Nat.repr i) ∧
      (∀ idx : List (VecEntry Nat),
        (upsertMany (upsertMany idx vecs₁) vecs₂).map (fun v => v.id) =
          (upsertMany idx vecs₁).map (fun v => v.id)) :=
  store_document_idempotent_ids (fun _ => 0) (fun _ => 1) "d"
    (String.toList "ab") 3 1 (by decide) (by decide)

/-!
The embedding-creation and embedding-deletion endpoints
(src/api/embeddings.py) acting on the pair of stores: the vector index
(entries with doc-id metadata, last-writer-wins upsert, delete by
metadata filter) and the relational embedding rows
(`EmbeddingRepository`).  Document ids are produced by `uuid.uuid4()`
(src/db/models.py) and therefore always have the fixed string length 36;
the reachability relation below records that fact on the create
operations.
-/

/-- A relational embedding row (table `embeddings`): document id, chunk
text, chunk index and the derived vector id. -/
structure EmbRow where
  doc_id : String
  chunk_text : List Char
  chunk_index : Nat
  vector_id : String
deriving DecidableEq

/-- The two stores the embedding endpoints act on. -/
structure SysState where
  index : List (VecEntry Unit)
  rows : List EmbRow
deriving DecidableEq

/-- `PineconeService.delete_by_filter` with the doc-id equality filter used
by `VectorStore.delete_document_vectors`. -/
def deleteByFilter (d : String) (idx : List (VecEntry Unit)) : List (VecEntry Unit) :=
  idx.filter (fun v => ! (v.meta_doc_id == d))

/-- `EmbeddingRepository.delete_by_doc_id`. -/
def dbDeleteByDoc (d : String) (rows : List EmbRow) : List EmbRow :=
  rows.filter (fun r => ! (r.doc_id == d))

/-- The embedding rows created by the `for i, (chunk, vector_id) in
enumerate(zip(chunks, vector_ids))` loop of `create_embeddings`. -/
def newEmbRows (d : String) (chunks : List (List Char)) (ids : List String) : List EmbRow :=
  (pyEnumerate (chunks.zip ids)).map (fun p => ⟨d, p.2.1, p.1, p.2.2⟩)

/-- The delete-existing-embeddings step at the top of `create_embeddings`:
if the relational store has rows for the document, delete the document's
vectors (by metadata filter) and its rows. -/
def preDelete (st : SysState) (d : String) : SysState :=
  if st.rows.any (fun r => r.doc_id == d) then
    ⟨deleteByFilter d st.index, dbDeleteByDoc d st.rows⟩
  else st

/-- The `create_embeddings` endpoint, text branch: delete existing
embeddings if any, store the document through the vector store, re-chunk
the text with the inline loop and mirror the chunks as relational rows.
`none` when the chunking loop does not terminate (the operation never
completes). -/
def createEmbeddingsTextOp (st : SysState) (d : String) (text : List Char)
    (cs co : Int) : Option SysState :=
  let st1 := preDelete st d
  match store_document (fun _ => ()) d text cs co,
      createEmbeddingsRechunk text cs co with
  | some (vectors, vector_ids), some chunks =>
      some ⟨upsertMany st1.index vectors, st1.rows ++ newEmbRows d chunks vector_ids⟩
  | _, _ => none

/-- The `create_embeddings` endpoint, pre-chunked branch: delete existing
embeddings if any, build and upsert one vector per given chunk, and mirror
the chunks as relational rows. -/
def createEmbeddingsChunksOp (st : SysState) (d : String)
    (chunks : List (List Char)) : SysState :=
  let st1 := preDelete st d
  let vectors := storeVectors (fun _ => ()) d chunks
  ⟨upsertMany st1.index vectors,
    st1.rows ++ newEmbRows d chunks (vectors.map (fun v => v.id))⟩

/-- The `delete_document_embeddings` endpoint: delete the document's
vectors by metadata filter, then its relational rows. -/
def deleteEmbeddingsOp (st : SysState) (d : String) : SysState :=
  ⟨deleteByFilter d st.index, dbDeleteByDoc d st.rows⟩

/-- States reachable from the empty pair of stores by successful embedding
operations; document ids are uuid4 strings, hence of length 36. -/
inductive Reachable : SysState → Prop
  | init : Reachable ⟨[], []⟩
  | createText (st : SysState) (d : String) (text : List Char) (cs co : Int)
      (st' : SysState) : Reachable st → d.length = 36 →
      createEmbeddingsTextOp st d text cs co = some st' → Reachable st'
  | createChunks (st : SysState) (d : String) (chunks : List (List Char)) :
      Reachable st → d.length = 36 → Reachable (createEmbeddingsChunksOp st d chunks)
  | delete (st : SysState) (d : String) :
      Reachable st → Reachable (deleteEmbeddingsOp st d)

/-- Projection of the vector index to (vector id, metadata doc id) pairs. -/
def indexPairs (idx : List (VecEntry Unit)) : List (String × String) :=
  idx.map (fun v => (v.id, v.meta_doc_id))

/-- Projection of the relational rows to (vector id, doc id) pairs. -/
def rowPairs (rows : List EmbRow) : List (String × String) :=
  rows.map (fun r => (r.vector_id, r.doc_id))

/-- The inductive invariant: every index entry's id has the derived shape
for its own metadata doc id (whose length is 36), and the index and the
relational rows carry exactly the same (vector id, doc id) pairs. -/
def Inv (st : SysState) : Prop :=
  (∀ v ∈ st.index, (∃ i, v.id = vector_id v.meta_doc_id i) ∧ v.meta_doc_id.length = 36) ∧
  (∀ p : String × String, p ∈ indexPairs st.index ↔ p ∈ rowPairs st.rows)

theorem vector_id_inj_doc (d₁ d₂ : String) (i j : Nat) (hlen : d₁.length = d₂.length)
    (h : vector_id d₁ i = vector_id d₂ j) : d₁ = d₂ := by
  unfold vector_id at h
  have hdata := congrArg String.data h
  simp only [String.data_append, List.append_assoc] at hdata
  have hl : d₁.data.length = d₂.data.length := hlen
  obtain ⟨h1, _⟩ := List.append_inj hdata hl
  exact congrArg String.mk h1

theorem mem_upsertOne {α : Type} (idx : List (VecEntry α)) (w v : VecEntry α)
    (h : v ∈ upsertOne idx w) : v ∈ idx ∨ v = w := by
  unfold upsertOne at h
  split at h
  · obtain ⟨e, he, hev⟩ := List.mem_map.1 h
    by_cases hcase : e.id = w.id
    · right
      rw [if_pos (by simp [hcase])] at hev
      exact hev.symm
    · left
      rw [if_neg (by simp [hcase])] at hev
      exact hev ▸ he
  · rcases List.mem_append.1 h with h1 | h1
    · exact Or.inl h1
    · exact Or.inr (List.mem_singleton.1 h1)

theorem mem_upsertMany {α : Type} :
    ∀ (vs : List (VecEntry α)) (idx : List (VecEntry α)) (v : VecEntry α),
      v ∈ upsertMany idx vs → v ∈ idx ∨ v ∈ vs := by
  intro vs
  induction vs with
  | nil => intro idx v h; exact Or.inl h
  | cons w rest ih =>
    intro idx v h
    have hstep : upsertMany idx (w :: rest) = upsertMany (upsertOne idx w) rest := rfl
    rw [hstep] at h
    rcases ih (upsertOne idx w) v h with h1 | h1
    · rcases mem_upsertOne idx w v h1 with h2 | h2
      · exact Or.inl h2
      · exact Or.inr (h2 ▸ List.mem_cons_self w rest)
    · exact Or.inr (List.mem_cons_of_mem w h1)

theorem pairs_deleteByFilter (d : String) (idx : List (VecEntry Unit))
    (p : String × String) :
    p ∈ indexPairs (deleteByFilter d idx) ↔ p ∈ indexPairs idx ∧ p.2 ≠ d := by
  unfold indexPairs deleteByFilter
  simp only [List.mem_map, List.mem_filter, Bool.not_eq_true', beq_eq_false_iff_ne, ne_eq]
  constructor
  · rintro ⟨v, ⟨hv, hmeta⟩, hp⟩
    exact ⟨⟨v, hv, hp⟩, by rw [← hp]; exact hmeta⟩
  · rintro ⟨⟨v, hv, hp⟩, hne⟩
    exact ⟨v, ⟨hv, by rw [← hp] at hne; exact hne⟩, hp⟩

theorem pairs_dbDeleteByDoc (d : String) (rows : List EmbRow)
    (p : String × String) :
    p ∈ rowPairs (dbDeleteByDoc d rows) ↔ p ∈ rowPairs rows ∧ p.2 ≠ d := by
  unfold rowPairs dbDeleteByDoc
  simp only [List.mem_map, List.mem_filter, Bool.not_eq_true', beq_eq_false_iff_ne, ne_eq]
  constructor
  · rintro ⟨r, ⟨hr, hdoc⟩, hp⟩
    exact ⟨⟨r, hr, hp⟩, by rw [← hp]; exact hdoc⟩
  · rintro ⟨⟨r, hr, hp⟩, hne⟩
    exact ⟨r, ⟨hr, by rw [← hp] at hne; exact hne⟩, hp⟩

theorem pairs_mem_upsertOne (idx : List (VecEntry Unit)) (w : VecEntry Unit)
    (hkey : ∀ e ∈ idx, e.id = w.id → e.meta_doc_id = w.meta_doc_id)
    (p : String × String) :
    p ∈ indexPairs (upsertOne idx w) ↔
      p ∈ indexPairs idx ∨ p = (w.id, w.meta_doc_id) := by
  unfold upsertOne indexPairs
  by_cases hany : idx.any (fun e => e.id == w.id) = true
  · rw [if_pos hany, List.map_map]
    simp only [List.mem_map, Function.comp_apply]
    constructor
    · rintro ⟨e, he, hp⟩
      by_cases hcase : e.id = w.id
      · right
        rw [if_pos (by simp [hcase])] at hp
        exact hp.symm
      · left
        rw [if_neg (by simp [hcase])] at hp
        exact ⟨e, he, hp⟩
    · rintro (⟨e, he, hp⟩ | hp)
      · refine ⟨e, he, ?_⟩
        by_cases hcase : e.id = w.id
        · rw [if_pos (by simp [hcase]), ← hp, ← hcase, hkey e he hcase]
        · rw [if_neg (by simp [hcase])]
          exact hp
      · have hex : ∃ e ∈ idx, e.id = w.id := by
          simpa [List.any_eq_true, beq_iff_eq] using hany
        obtain ⟨e, he, hid⟩ := hex
        refine ⟨e, he, ?_⟩
        rw [if_pos (by simp [hid]), hp]
  · rw [if_neg hany, List.map_append]
    simp [List.mem_append]

theorem pairs_mem_upsertMany (d : String) :
    ∀ (vs idx : List (VecEntry Unit)),
      (∀ w ∈ vs, w.meta_doc_id = d) →
      (∀ w ∈ vs, ∀ e ∈ idx, e.id = w.id → e.meta_doc_id = d) →
      ∀ p : String × String,
        p ∈ indexPairs (upsertMany idx vs) ↔
          p ∈ indexPairs idx ∨ p ∈ indexPairs vs := by
  intro vs
  induction vs with
  | nil =>
    intro idx _ _ p
    simp [upsertMany, indexPairs]
  | cons w rest ih =>
    intro idx hmeta hkey p
    have hstep : upsertMany idx (w :: rest) = upsertMany (upsertOne idx w) rest := rfl
    rw [hstep]
    have hkey1 : ∀ e ∈ idx, e.id = w.id → e.meta_doc_id = w.meta_doc_id := by
      intro e he hid
      rw [hmeta w (List.mem_cons_self w rest)]
      exact hkey w (List.mem_cons_self w rest) e he hid
    have hmeta' : ∀ w' ∈ rest, w'.meta_doc_id = d :=
      fun w' hw' => hmeta w' (List.mem_cons_of_mem w hw')
    have hkey' : ∀ w' ∈ rest, ∀ e ∈ upsertOne idx w, e.id = w'.id → e.meta_doc_id = d := by
      intro w' hw' e he hid
      rcases mem_upsertOne idx w e he with h1 | h1
      · exact hkey w' (List.mem_cons_of_mem w hw') e h1 hid
      · rw [h1]
        exact hmeta w (List.mem_cons_self w rest)
    rw [ih (upsertOne idx w) hmeta' hkey' p, pairs_mem_upsertOne idx w hkey1 p]
    unfold indexPairs
    simp only [List.map_cons, List.mem_cons]
    tauto

theorem storeVectors_meta {α : Type} (embed : List Char → α) (d : String)
    (chunks : List (List Char)) :
    ∀ v ∈ storeVectors embed d chunks, v.meta_doc_id = d := by
  intro v hv
  obtain ⟨p, _, hpv⟩ := List.mem_map.1 hv
  rw [← hpv]

theorem storeVectors_shape {α : Type} (embed : List Char → α) (d : String)
    (chunks : List (List Char)) :
    ∀ v ∈ storeVectors embed d chunks, ∃ i, v.id = vector_id v.meta_doc_id i := by
  intro v hv
  obtain ⟨p, _, hpv⟩ := List.mem_map.1 hv
  exact ⟨p.1, by rw [← hpv]⟩

theorem storeVectors_length {α : Type} (embed : List Char → α) (d : String)
    (chunks : List (List Char)) :
    (storeVectors embed d chunks).length = chunks.length := by
  simp [storeVectors, pyEnumerate]

theorem indexPairs_storeVectors (d : String) (chunks : List (List Char)) :
    indexPairs (storeVectors (fun _ => ()) d chunks) =
      (List.range chunks.length).map (fun i => (vector_id d i, d)) := by
  unfold indexPairs storeVectors pyEnumerate
  rw [List.map_map]
  have h1 : ((List.range chunks.length).zip chunks).map
        ((fun v : VecEntry Unit => (v.id, v.meta_doc_id)) ∘
          (fun p : Nat × List Char =>
            VecEntry.mk (vector_id d p.1) () d p.1 (p.2.take 500))) =
      (((List.range chunks.length).zip chunks).map Prod.fst).map
        (fun i => (vector_id d i, d)) := by
    rw [List.map_map]
    rfl
  rw [h1, List.map_fst_zip _ _ (by simp)]

theorem rowPairs_newEmbRows (d : String) (chunks : List (List Char))
    (ids : List String) (hlen : ids.length ≤ chunks.length) :
    rowPairs (newEmbRows d chunks ids) = ids.map (fun s => (s, d)) := by
  unfold rowPairs newEmbRows pyEnumerate
  rw [List.map_map]
  have h1 : ((List.range (chunks.zip ids).length).zip (chunks.zip ids)).map
        ((fun r : EmbRow => (r.vector_id, r.doc_id)) ∘
          (fun p : Nat × (List Char × String) => EmbRow.mk d p.2.1 p.1 p.2.2)) =
      (((List.range (chunks.zip ids).length).zip (chunks.zip ids)).map Prod.snd).map
        (fun q : List Char × String => (q.2, d)) := by
    rw [List.map_map]
    rfl
  rw [h1, List.map_snd_zip _ _ (by simp)]
  have h2 : (chunks.zip ids).map (fun q : List Char × String => (q.2, d)) =
      ((chunks.zip ids).map Prod.snd).map (fun s => (s, d)) := by
    rw [List.map_map]
    rfl
  rw [h2, List.map_snd_zip _ _ hlen]

theorem Inv_deleteOp (st : SysState) (d : String) (h : Inv st) :
    Inv (deleteEmbeddingsOp st d) := by
  obtain ⟨hfmt, hiff⟩ := h
  constructor
  · intro v hv
    exact hfmt v (List.mem_filter.1 hv).1
  · intro p
    rw [show (deleteEmbeddingsOp st d).index = deleteByFilter d st.index from rfl,
      show (deleteEmbeddingsOp st d).rows = dbDeleteByDoc d st.rows from rfl,
      pairs_deleteByFilter, pairs_dbDeleteByDoc, hiff p]

theorem Inv_preDelete (st : SysState) (d : String) (h : Inv st) :
    Inv (preDelete st d) := by
  unfold preDelete
  split
  · exact Inv_deleteOp st d h
  · exact h

theorem Inv_insertStep (st1 : SysState) (d : String) (chunks : List (List Char))
    (hInv : Inv st1) (hd : d.length = 36) :
    Inv ⟨upsertMany st1.index (storeVectors (fun _ => ()) d chunks),
      st1.rows ++ newEmbRows d chunks
        ((storeVectors (fun _ => ()) d chunks).map (fun v => v.id))⟩ := by
  obtain ⟨hfmt, hiff⟩ := hInv
  have hmeta := storeVectors_meta (fun _ => ()) d chunks
  have hkey : ∀ w ∈ storeVectors (fun _ => ()) d chunks, ∀ e ∈ st1.index,
      e.id = w.id → e.meta_doc_id = d := by
    intro w hw e he hid
    obtain ⟨⟨j, hej⟩, he36⟩ := hfmt e he
    obtain ⟨i, hwi⟩ := storeVectors_shape _ d chunks w hw
    rw [hmeta w hw] at hwi
    apply vector_id_inj_doc e.meta_doc_id d j i (by rw [he36, hd])
    rw [← hej, hid, hwi]
  constructor
  · intro v hv
    rcases mem_upsertMany _ _ v hv with h1 | h1
    · exact hfmt v h1
    · exact ⟨storeVectors_shape _ d chunks v h1,
        by rw [storeVectors_meta _ d chunks v h1]; exact hd⟩
  · intro p
    have h1 := pairs_mem_upsertMany d (storeVectors (fun _ => ()) d chunks)
      st1.index hmeta hkey p
    have hpl : rowPairs (newEmbRows d chunks
          ((storeVectors (fun _ => ()) d chunks).map (fun v => v.id))) =
        indexPairs (storeVectors (fun _ => ()) d chunks) := by
      rw [rowPairs_newEmbRows d chunks _
          (by rw [List.length_map, storeVectors_length]),
        storeVectors_map_id, indexPairs_storeVectors, List.map_map]
      rfl
    have h2 : rowPairs (st1.rows ++ newEmbRows d chunks
          ((storeVectors (fun _ => ()) d chunks).map (fun v => v.id))) =
        rowPairs st1.rows ++
          rowPairs (newEmbRows d chunks
            ((storeVectors (fun _ => ()) d chunks).map (fun v => v.id))) :=
      List.map_append _ _ _
    rw [show (⟨upsertMany st1.index (storeVectors (fun _ => ()) d chunks),
        st1.rows ++ newEmbRows d chunks
          ((storeVectors (fun _ => ()) d chunks).map (fun v => v.id))⟩ :
        SysState).index = upsertMany st1.index (storeVectors (fun _ => ()) d chunks)
      from rfl]
    rw [h1, h2, List.mem_append, hiff p, hpl]

theorem Inv_createChunksOp (st : SysState) (d : String) (chunks : List (List Char))
    (h : Inv st) (hd : d.length = 36) :
    Inv (createEmbeddingsChunksOp st d chunks) :=
  Inv_insertStep (preDelete st d) d chunks (Inv_preDelete st d h) hd

theorem Inv_createTextOp (st : SysState) (d : String) (text : List Char)
    (cs co : Int) (st' : SysState) (h : Inv st) (hd : d.length = 36)
    (hop : createEmbeddingsTextOp st d text cs co = some st') : Inv st' := by
  unfold createEmbeddingsTextOp at hop
  cases hct : chunk_text text cs co with
  | none =>
    rw [show store_document (fun _ => ()) d text cs co =
        (chunk_text text cs co).map _ from rfl, hct] at hop
    simp at hop
  | some chunks =>
    have hrc : createEmbeddingsRechunk text cs co = some chunks := by
      have he : createEmbeddingsRechunk text cs co = chunk_text text cs co :=
        createEmbeddingsRechunkAux_eq text cs co (text.length + 1) 0
      rw [he, hct]
    have hsd : store_document (fun _ => ()) d text cs co =
        some (storeVectors (fun _ => ()) d chunks,
          (storeVectors (fun _ => ()) d chunks).map (fun v => v.id)) := by
      unfold store_document
      rw [hct]
      rfl
    rw [hsd, hrc] at hop
    simp only [Option.some.injEq] at hop
    rw [← hop]
    exact Inv_insertStep (preDelete st d) d chunks (Inv_preDelete st d h) hd

theorem Inv_of_reachable (st : SysState) (h : Reachable st) : Inv st := by
  induction h with
  | init =>
    constructor
    · intro v hv
      cases hv
    · intro p
      simp [indexPairs, rowPairs]
  | createText st d text cs co st' _ hd hop ih =>
    exact Inv_createTextOp st d text cs co st' ih hd hop
  | createChunks st d chunks _ hd ih =>
    exact Inv_createChunksOp st d chunks ih hd
  | delete st d _ ih =>
    exact Inv_deleteOp st d ih

/-- C6: in every state reachable from the empty stores by successful
embedding-creation (either branch) and embedding-deletion operations — with
document ids of the fixed uuid4 string length 36 — the set of vector ids
present in the vector index for a document (entries whose metadata doc id
matches) coincides with the set of `vector_id` values of that document's
relational embedding rows, for every document id. -/
theorem index_rows_vector_ids_agree (st : SysState) (h : Reachable st)
    (d vid : String) :
    vid ∈ (st.index.filter (fun v => v.meta_doc_id == d)).map (fun v => v.id) ↔
    vid ∈ (st.rows.filter (fun r => r.doc_id == d)).map (fun r => r.vector_id) := by
  have hInv := Inv_of_reachable st h
  have h1 : vid ∈ (st.index.filter (fun v => v.meta_doc_id == d)).map (fun v => v.id) ↔
      (vid, d) ∈ indexPairs st.index := by
    unfold indexPairs
    simp only [List.mem_map, List.mem_filter, beq_iff_eq]
    constructor
    · rintro ⟨v, ⟨hv, hm⟩, hid⟩
      exact ⟨v, hv, by rw [hid, hm]⟩
    · rintro ⟨v, hv, hp⟩
      exact ⟨v, ⟨hv, congrArg Prod.snd hp⟩, congrArg Prod.fst hp⟩
  have h2 : vid ∈ (st.rows.filter (fun r => r.doc_id == d)).map (fun r => r.vector_id) ↔
      (vid, d) ∈ rowPairs st.rows := by
    unfold rowPairs
    simp only [List.mem_map, List.mem_filter, beq_iff_eq]
    constructor
    · rintro ⟨r, ⟨hr, hm⟩, hid⟩
      exact ⟨r, hr, by rw [hid, hm]⟩
    · rintro ⟨r, hr, hp⟩
      exact ⟨r, ⟨hr, congrArg Prod.snd hp⟩, congrArg Prod.fst hp⟩
  rw [h1, h2]
  exact hInv.2 (vid, d)

/-- Witness for `index_rows_vector_ids_agree`: the state reached by one
pre-chunked embedding-creation for a uuid-length document id, queried at
that document and its first derived vector id. -/
theorem index_rows_vector_ids_agree_witness :
    ("123e4567-e89b-12d3-a456-426614174000" : String).length = 36 ∧
    (vector_id "123e4567-e89b-12d3-a456-426614174000" 0 ∈
        ((createEmbeddingsChunksOp ⟨[], []⟩ "123e4567-e89b-12d3-a456-426614174000"
            [String.toList "hello"]).index.filter
          (fun v => v.meta_doc_id == "123e4567-e89b-12d3-a456-426614174000")).map
            (fun v => v.id) ↔
      vector_id "123e4567-e89b-12d3-a456-426614174000" 0 ∈
        ((createEmbeddingsChunksOp ⟨[], []⟩ "123e4567-e89b-12d3-a456-426614174000"
            [String.toList "hello"]).rows.filter
          (fun r => r.doc_id == "123e4567-e89b-12d3-a456-426614174000")).map
            (fun r => r.vector_id)) :=
  ⟨by decide,
    index_rows_vector_ids_agree _
      (Reachable.createChunks ⟨[], []⟩ "123e4567-e89b-12d3-a456-426614174000"
        [String.toList "hello"] Reachable.init (by decide)) _ _⟩

/-!
Search path (src/services/pinecone_service.py `query`,
src/services/vector_store.py `search_similar`).  The external index handle
and the match type are opaque type parameters; the query-embedding call can
fail, which is modelled with `Except`.
-/

/-- `PineconeService.query`: returns the empty list when no index handle is
configured, otherwise delegates to the external index (the `backend`
function models `self.index.query(...)` followed by the extraction of the
match list). -/
def pinecone_query {Idx Match : Type} (index : Option Idx)
    (backend : Idx → List Match) : List Match :=
  match index with
  | none => []
  | some i => backend i

/-- `VectorStore.search_similar`: embed the query (a fallible external
call), build the optional doc-id equality filter, and query the index. -/
def search_similar {E Vec Idx Match : Type} (embedQuery : Except E Vec)
    (index : Option Idx)
    (backend : Idx → Vec → Nat → Option String → List Match)
    (top_k : Nat) (doc_id_filter : Option String) : Except E (List Match) :=
  match embedQuery with
  | .error e => .error e
  | .ok v =>
      .ok (pinecone_query index
        (fun i => backend i v top_k (doc_id_filter.map (fun d => d))))

/-- C7: when the vector backend is unconfigured (no index handle), for every
query embedding, `top_k` and optional doc-id filter, `search_similar`
returns the empty sequence without an error, and the underlying
`PineconeService.query` returns the empty sequence for every backend
behaviour. -/
theorem search_similar_unconfigured {E Vec Idx Match : Type}
    (embedQuery : Except E Vec) (v : Vec) (hok : embedQuery = .ok v)
    (backend : Idx → Vec → Nat → Option String → List Match)
    (top_k : Nat) (doc_id_filter : Option String) :
    search_similar embedQuery (none : Option Idx) backend top_k doc_id_filter =
      .ok ([] : List Match) ∧
    ∀ backendQ : Idx → List Match,
      pinecone_query (none : Option Idx) backendQ = [] := by
  subst hok
  exact ⟨rfl, fun _ => rfl⟩

/-- Witness for `search_similar_unconfigured` at concrete types and inputs. -/
theorem search_similar_unconfigured_witness :
    search_similar (Except.ok 7 : Except String Nat) (none : Option Nat)
      (fun _ _ _ _ => ([] : List Nat)) 5 (some "doc") = .ok ([] : List Nat) ∧
    ∀ backendQ : Nat → List Nat,
      pinecone_query (none : Option Nat) backendQ = [] :=
  search_similar_unconfigured (Except.ok 7) 7 rfl _ 5 (some "doc")

/-!
Substring utilities modelling Python's `in` operator, `str.replace` and
`str.strip` (restricted to ASCII whitespace, the only whitespace appearing
in this code base), used by the agents.
-/

/-- Does the second list start with the first one? -/
def beginsWith : List Char → List Char → Bool
  | [], _ => true
  | _ :: _, [] => false
  | p :: ps, c :: rest => p == c && beginsWith ps rest

/-- Python's `pat in s` substring test. -/
def strContains : List Char → List Char → Bool
  | [], pat => pat.isEmpty
  | c :: rest, pat => beginsWith pat (c :: rest) || strContains rest pat

/-- Left-to-right non-overlapping replacement for a non-empty pattern; the
fuel argument (instantiated with the length of the scanned list, which
every step shrinks by at least one) makes the recursion structural. -/
def replaceAux (pat rep : List Char) : Nat → List Char → List Char
  | _, [] => []
  | 0, s => s
  | fuel + 1, c :: rest =>
    if beginsWith pat (c :: rest) then
      rep ++ replaceAux pat rep fuel (rest.drop (pat.length - 1))
    else
      c :: replaceAux pat rep fuel rest

/-- Python `s.replace(pat, rep)`: all non-overlapping occurrences, scanning
left to right; an empty pattern inserts `rep` before every character and at
the end. -/
def pyReplace (s pat rep : List Char) : List Char :=
  match pat with
  | [] => rep ++ (s.map (fun c => c :: rep)).flatten
  | _ :: _ => replaceAux pat rep s.length s

/-- ASCII whitespace stripped by Python's `str.strip`. -/
def isPySpace (c : Char) : Bool :=
  c == ' ' || c == '\t' || c == '\n' || c == '\r' || c == '\x0b' || c == '\x0c'

/-- Python `s.strip()` on ASCII whitespace. -/
def pyStrip (s : List Char) : List Char :=
  ((s.dropWhile isPySpace).reverse.dropWhile isPySpace).reverse

theorem beginsWith_iff (pat s : List Char) :
    beginsWith pat s = true ↔ ∃ t, s = pat ++ t := by
  induction pat generalizing s with
  | nil => simp [beginsWith]
  | cons p ps ih =>
    cases s with
    | nil =>
      simp [beginsWith]
    | cons c rest =>
      simp only [beginsWith, Bool.and_eq_true, beq_iff_eq, ih rest, List.cons_append,
        List.cons.injEq]
      constructor
      · rintro ⟨hpc, t, ht⟩
        exact ⟨t, hpc.symm, ht⟩
      · rintro ⟨t, hcp, ht⟩
        exact ⟨hcp.symm, t, ht⟩

theorem strContains_iff (s pat : List Char) :
    strContains s pat = true ↔ ∃ a b, s = a ++ pat ++ b := by
  induction s with
  | nil =>
    simp only [strContains, List.isEmpty_iff]
    constructor
    · intro h
      exact ⟨[], [], by simp [h]⟩
    · rintro ⟨a, b, hab⟩
      rcases List.append_eq_nil.1 (List.append_eq_nil.1 hab.symm).1 |>.2 with h
      · exact h
  | cons c rest ih =>
    simp only [strContains, Bool.or_eq_true, beginsWith_iff, ih]
    constructor
    · rintro (⟨t, ht⟩ | ⟨a, b, hab⟩)
      · exact ⟨[], t, by simp [ht]⟩
      · exact ⟨c :: a, b, by simp [hab]⟩
    · rintro ⟨a, b, hab⟩
      cases a with
      | nil =>
        left
        exact ⟨b, by simpa using hab⟩
      | cons a0 as =>
        right
        refine ⟨as, b, ?_⟩
        have := hab
        simp only [List.cons_append, List.cons.injEq] at this
        exact this.2

/-!
Generator agent (src/agents/generator_agent.py).  The text-generation
backend is modelled as `Option (List Char)`: `some content` for a
successful `chat_completion`, `none` when the call raises.  When every
backend call raises, the intent and context steps fall back to defaults
that do not reach the produced content, and `_generate_content` returns
the fallback template below; `_validate_consistency` returns its input in
both of its branches.
-/

/-- The fallback document template of `_generate_content`: the first 1000
characters of the source embedded in a fixed markdown scaffold. -/
def fallbackDocContent (title source : List Char) : List Char :=
  String.toList "# " ++ title ++
    String.toList "\n\n## Overview\nThis document provides technical documentation for " ++
    title ++ String.toList ".\n\n## Source Material\n" ++ source.take 1000 ++
    String.toList "\n\n*Note: Full documentation generation encountered an error. Please review and complete manually.*\n"

/-- `_generate_content`: the backend's output on success, the fallback
template on failure. -/
def generate_content (backend : Option (List Char)) (title source : List Char) :
    List Char :=
  match backend with
  | some content => content
  | none => fallbackDocContent title source

/-- `_validate_consistency`: returns the content unchanged in both
branches of its length check. -/
def validate_consistency (content : List Char) : List Char :=
  if content = [] ∨ (pyStrip content).length < 50 then content else content

/-- The document returned by `GeneratorAgent.generate_document`. -/
structure GeneratedDoc where
  title : List Char
  content : List Char
  doc_type : List Char
deriving DecidableEq

/-- `GeneratorAgent.generate_document` restricted to the fields the claims
are about (the metadata dictionary carries only the intent summary and a
context count). -/
def generate_document (backend : Option (List Char))
    (title source doc_type : List Char) : GeneratedDoc :=
  ⟨title, validate_consistency (generate_content backend title source), doc_type⟩

theorem validate_consistency_eq (content : List Char) :
    validate_consistency content = content := by
  unfold validate_consistency
  exact ite_self content

theorem generate_document_none_content (title source doc_type : List Char) :
    (generate_document none title source doc_type).content =
      fallbackDocContent title source := by
  unfold generate_document generate_content
  exact validate_consistency_eq _

/-- C8 (amended): when the generation backend raises on every call,
`generate_document` still returns a document (not an error) whose content
is the fallback template, which contains the FIRST 1000 CHARACTERS of the
source verbatim — and hence the whole source verbatim whenever the source
has at most 1000 characters.  The original claim promised the whole source
verbatim for every source; the fallback truncates at 1000 characters, see
`generate_document_truncation_counterexample`. -/
theorem generate_document_fallback (title source doc_type : List Char) :
    (generate_document none title source doc_type).content =
      fallbackDocContent title source ∧
    strContains (generate_document none title source doc_type).content
      (source.take 1000) = true ∧
    (source.length ≤ 1000 →
      strContains (generate_document none title source doc_type).content
        source = true) := by
  refine ⟨generate_document_none_content title source doc_type, ?_, ?_⟩
  · rw [generate_document_none_content]
    apply (strContains_iff _ _).2
    refine ⟨String.toList "# " ++ title ++
      String.toList "\n\n## Overview\nThis document provides technical documentation for " ++
      title ++ String.toList ".\n\n## Source Material\n",
      String.toList "\n\n*Note: Full documentation generation encountered an error. Please review and complete manually.*\n",
      ?_⟩
    unfold fallbackDocContent
    simp [List.append_assoc]
  · intro hle
    rw [generate_document_none_content]
    have htake : source.take 1000 = source := List.take_of_length_le hle
    apply (strContains_iff _ _).2
    refine ⟨String.toList "# " ++ title ++
      String.toList "\n\n## Overview\nThis document provides technical documentation for " ++
      title ++ String.toList ".\n\n## Source Material\n",
      String.toList "\n\n*Note: Full documentation generation encountered an error. Please review and complete manually.*\n",
      ?_⟩
    unfold fallbackDocContent
    rw [htake]

/-- Witness for `generate_document_fallback`: a two-character source is
recovered verbatim from the fallback content. -/
theorem generate_document_fallback_witness :
    strContains (generate_document none (String.toList "T") (String.toList "hi")
      (String.toList "api")).content (String.toList "hi") = true :=
  (generate_document_fallback (String.toList "T") (String.toList "hi")
    (String.toList "api")).2.2 (by decide)

/-- A source of 1001 characters whose last character appears nowhere else in
the fallback template. -/
def cexSource : List Char := List.replicate 1000 'a' ++ ['!']

set_option maxRecDepth 4000 in
/-- C8 counterexample: for the 1001-character source `cexSource`, the
document produced by `generate_document` under a failing backend does NOT
contain the literal source text verbatim — the fallback embeds only the
first 1000 characters, and the final character of the source occurs nowhere
in the produced content. -/
theorem generate_document_truncation_counterexample :
    strContains (generate_document none (String.toList "T") cexSource
      (String.toList "api")).content cexSource = false := by
  rw [generate_document_none_content]
  have htake : cexSource.take 1000 = List.replicate 1000 'a' := by
    unfold cexSource
    exact List.take_left' (List.length_replicate 1000 'a')
  have hnomem : ('!' : Char) ∉ fallbackDocContent (String.toList "T") cexSource := by
    unfold fallbackDocContent
    rw [htake]
    intro hmem
    simp only [List.mem_append, List.mem_replicate] at hmem
    rcases hmem with ((((((h | h) | h) | h) | h) | h) | h) <;> revert h <;> decide
  rcases Bool.eq_false_or_eq_true
      (strContains (fallbackDocContent (String.toList "T") cexSource) cexSource)
    with htrue | hfalse
  · exfalso
    obtain ⟨a, b, hab⟩ := (strContains_iff _ _).1 htrue
    apply hnomem
    rw [hab]
    refine List.mem_append.2 (Or.inl (List.mem_append.2 (Or.inr ?_)))
    unfold cexSource
    exact List.mem_append.2 (Or.inr (List.mem_singleton.2 rfl))
  · exact hfalse

/-!
Maintenance agent (src/agents/maintenance_agent.py).  As for the
generator, the text-generation backend is an `Option (List Char)`:
`some content` when `chat_completion` succeeds, `none` when it raises.
-/

/-- `_update_section`: the backend's rewrite on success; on failure the
fallback `current_content.replace(section, new_content) if section in
current_content else current_content`. -/
def update_section (backend : Option (List Char))
    (current_content sec new_content : List Char) : List Char :=
  match backend with
  | some content => content
  | none =>
      if strContains current_content sec then
        pyReplace current_content sec new_content
      else
        current_content

/-- `_ensure_consistency`: discard the update and keep the original when
the updated content is empty or shorter than 50 characters after
stripping. -/
def ensure_consistency (original_content updated_content : List Char) : List Char :=
  if updated_content = [] ∨ (pyStrip updated_content).length < 50 then
    original_content
  else
    updated_content

/-- The result dictionary of `MaintenanceAgent.update_document`, restricted
to the fields the claims are about. -/
structure UpdateResult where
  updated_content : List Char
  sec : List Char
deriving DecidableEq

/-- `MaintenanceAgent.update_document`: update the section, then validate
the candidate against the original with `_ensure_consistency`. -/
def update_document (backend : Option (List Char))
    (current_content sec new_content : List Char) : UpdateResult :=
  let updated := update_section backend current_content sec new_content
  ⟨ensure_consistency current_content updated, sec⟩

theorem replaceAux_not_occurring (sec new_content : List Char) :
    ∀ (fuel : Nat) (s : List Char), strContains s sec = false →
      s.length ≤ fuel → replaceAux sec new_content fuel s = s := by
  intro fuel
  induction fuel with
  | zero =>
    intro s _ hlen
    cases s with
    | nil => rfl
    | cons c rest => simp at hlen
  | succ fuel ih =>
    intro s h hlen
    cases s with
    | nil => rfl
    | cons c rest =>
      rw [show strContains (c :: rest) sec =
          (beginsWith sec (c :: rest) || strContains rest sec) from rfl,
        Bool.or_eq_false_iff] at h
      unfold replaceAux
      rw [if_neg (by rw [h.1]; exact Bool.false_ne_true)]
      rw [ih rest h.2 (by simpa using Nat.le_of_succ_le_succ (by simpa using hlen))]

theorem pyReplace_not_occurring (current sec new_content : List Char)
    (h : strContains current sec = false) :
    pyReplace current sec new_content = current := by
  cases sec with
  | nil =>
    cases current with
    | nil => simp [strContains, List.isEmpty] at h
    | cons c rest => simp [strContains, beginsWith] at h
  | cons p ps =>
    unfold pyReplace
    exact replaceAux_not_occurring (p :: ps) new_content current.length current h le_rfl

/-- C9: when the generation backend fails, `update_section` falls back to a
naive substring replacement — if the section occurs verbatim in the current
content (equivalently, the content splits as `a ++ section ++ b`), the
result is the content with the section replaced by the new content under
Python's `str.replace` semantics; otherwise the content is returned
unchanged (and the replacement itself would also leave it unchanged). -/
theorem update_section_fallback (current_content sec new_content : List Char) :
    ((∃ a b, current_content = a ++ sec ++ b) →
      update_section none current_content sec new_content =
        pyReplace current_content sec new_content) ∧
    (¬ (∃ a b, current_content = a ++ sec ++ b) →
      update_section none current_content sec new_content = current_content ∧
      pyReplace current_content sec new_content = current_content) := by
  constructor
  · intro hocc
    unfold update_section
    rw [if_pos ((strContains_iff current_content sec).2 hocc)]
  · intro hnocc
    have hfalse : strContains current_content sec = false := by
      rcases Bool.eq_false_or_eq_true (strContains current_content sec) with h | h
      · exact absurd ((strContains_iff current_content sec).1 h) hnocc
      · exact h
    constructor
    · unfold update_section
      rw [if_neg (by rw [hfalse]; exact Bool.false_ne_true)]
    · exact pyReplace_not_occurring current_content sec new_content hfalse

/-- Witness for `update_section_fallback`: replacing `b` by `XY` inside
`abc` under a failing backend, and leaving `abc` unchanged when the section
`z` does not occur. -/
theorem update_section_fallback_witness :
    (update_section none (String.toList "abc") (String.toList "b")
        (String.toList "XY") =
      pyReplace (String.toList "abc") (String.toList "b") (String.toList "XY")) ∧
    pyReplace (String.toList "abc") (String.toList "b") (String.toList "XY") =
      String.toList "aXYc" ∧
    update_section none (String.toList "abc") (String.toList "z")
        (String.toList "XY") = String.toList "abc" :=
  ⟨(update_section_fallback (String.toList "abc") (String.toList "b")
      (String.toList "XY")).1
      ⟨String.toList "a", String.toList "c", by decide⟩,
    by decide,
    ((update_section_fallback (String.toList "abc") (String.toList "z")
      (String.toList "XY")).2
      (fun hocc =>
        absurd ((strContains_iff (String.toList "abc") (String.toList "z")).2 hocc)
          (by decide))).1⟩

/-- C10: for every behaviour of the generation backend, if the candidate
content produced by the update step is empty or has fewer than 50
characters after stripping whitespace, `update_document` discards it and
returns the original content unchanged. -/
theorem update_document_keeps_original (backend : Option (List Char))
    (current_content sec new_content : List Char)
    (h : update_section backend current_content sec new_content = [] ∨
      (pyStrip (update_section backend current_content sec new_content)).length < 50) :
    (update_document backend current_content sec new_content).updated_content =
      current_content := by
  unfold update_document ensure_consistency
  simp only
  rw [if_pos h]

/-- Witness for `update_document_keeps_original`: a backend returning the
five-character content `tiny!` is discarded and the original survives. -/
theorem update_document_keeps_original_witness :
    ((pyStrip (update_section (some (String.toList "tiny!"))
        (String.toList "the original document content")
        (String.toList "s") (String.toList "n"))).length < 50) ∧
    (update_document (some (String.toList "tiny!"))
        (String.toList "the original document content")
        (String.toList "s") (String.toList "n")).updated_content =
      String.toList "the original document content" :=
  ⟨by decide,
    update_document_keeps_original (some (String.toList "tiny!"))
      (String.toList "the original document content")
      (String.toList "s") (String.toList "n") (Or.inr (by decide))⟩

end Docupilot
